import Mathlib

/-!
Verification of `ent`, the entropy and randomness test driver
(`src/stats/ent/ent.c`).

The file embeds the built-in `getopt`, the option loop and file selection of
`main`, the scan loop that fills `ccount` and `totalc` and hands every byte to
`rt_add`, and the chi-square sentence of the report.

Conventions of the embedding.

* An input stream is the list of values `fgetc` returns before `EOF`; each is
  an `unsigned char` value, hence `Fin 256`.
* A C string is the list of its characters before the terminating NUL; a
  character is a byte, with a code below 256.
* Whether plain `char` is signed is the compiler's choice: it is the parameter
  `charSigned` (true for the usual `_WIN32` compilers).
* `long` is a signed two's-complement integer whose largest value `LONG_MAX`
  comes from `<limits.h>`, which is not part of the repository: it is the
  parameter `longMax` (2^31 - 1 under LLP64, the `_WIN32` build this file
  caters for; 2^63 - 1 under LP64).  ISO C leaves an increment that leaves the
  range undefined; the embedding gives it the wrapped value, as the usual
  compilers do.
* `double` values are rationals; the text a `printf` conversion produces for
  one is supplied by the environment.
* `rt_init`, `rt_add`, `rt_end` and `pochisq` live outside `ent.c`; the calls
  of `rt_add` are recorded, the results of `rt_end` and `pochisq` are supplied
  by the environment.
* `getopt` is the one `ent.c` defines (compiled under `_WIN32`); `main` is
  embedded with it.
-/

set_option autoImplicit false

namespace Ent

/-! ## C library pieces used by the driver (the "C" locale) -/

/-- Value of a `long` after an arithmetic result `x`: the representative of `x`
modulo `2 * (longMax + 1)` in the range `-(longMax + 1) .. longMax`. -/
def wrapLong (longMax : Nat) (x : Int) : Int :=
  (x + (longMax + 1)) % (2 * (longMax + 1)) - (longMax + 1)

/-- The function `isupper` of `<ctype.h>` in the "C" locale. -/
def isupper (c : Int) : Bool := decide (0x41 ≤ c) && decide (c ≤ 0x5A)

/-- The function `islower` of `<ctype.h>` in the "C" locale. -/
def islower (c : Int) : Bool := decide (0x61 ≤ c) && decide (c ≤ 0x7A)

/-- The function `isalpha` of `<ctype.h>` in the "C" locale. -/
def isalpha (c : Int) : Bool := isupper c || islower c

/-- The function `tolower` of `<ctype.h>` in the "C" locale. -/
def tolower (c : Int) : Int := if isupper c then c + 0x20 else c

/-! ## The scan loop (ent.c lines 153-181) -/

/-- The variables the scan loop updates: the bins `ccount[0..255]`, the symbol
total `totalc`, and the buffers handed to `rt_add`, one entry per call, in call
order (each entry is the `len` bytes starting at `buf`). -/
structure ScanState where
  ccount : Nat → Int
  totalc : Int
  rtAdds : List (List Nat)

/-- State after `memset(ccount, 0, sizeof ccount)` with `totalc = 0`, before
any byte is read. -/
def ScanState.init : ScanState :=
  { ccount := fun _ => 0, totalc := 0, rtAdds := [] }

/-- The statement `ccount[i]++`. -/
def incr (longMax : Nat) (ccount : Nat → Int) (i : Nat) : Nat → Int :=
  fun j => if j = i then wrapLong longMax (ccount j + 1) else ccount j

/-- The loop `for (b = 0; b < 8; b++) { ccount[ob & 1]++; ob >>= 1; }`, with
`n` iterations left; `ob` is an `unsigned char`. -/
def bitLoop (longMax : Nat) : Nat → (Nat → Int) → Nat → (Nat → Int)
  | 0, ccount, _ => ccount
  | n + 1, ccount, ob => bitLoop longMax n (incr longMax ccount (ob &&& 1)) ((ob >>> 1) % 256)

/-- One iteration of the scan loop on the value `oc` read by `fgetc`. -/
def scanByte (longMax : Nat) (fold binary : Bool) (s : ScanState) (b : Fin 256) : ScanState :=
  let oc : Int := (b.val : Int)
  let oc : Int := if fold && isalpha oc && isupper oc then tolower oc else oc
  let ocb : Nat := (oc % 256).toNat
  { totalc := wrapLong longMax (s.totalc + (if binary then 8 else 1))
    ccount := if binary then bitLoop longMax 8 s.ccount ocb else incr longMax s.ccount ocb
    rtAdds := s.rtAdds ++ [[ocb]] }

/-- The scan loop run on a whole input stream, from the zeroed state. -/
def scan (longMax : Nat) (fold binary : Bool) (input : List (Fin 256)) : ScanState :=
  input.foldl (scanByte longMax fold binary) ScanState.init

/-- Number of 1 bits among the eight bits of a byte. -/
def popcount (b : Nat) : Nat := (List.range 8).countP (fun i => b.testBit i)

/-- The byte that case folding hands on: an upper-case letter `A..Z` plus
`0x20`, any other byte unchanged. -/
def foldByte (b : Fin 256) : Fin 256 :=
  if 0x41 ≤ b.val ∧ b.val ≤ 0x5A then ⟨(b.val + 0x20) % 256, Nat.mod_lt _ (by decide)⟩ else b

/-- Sum of the 256 bins. -/
def binSum (ccount : Nat → Int) : Int := ((List.range 256).map ccount).sum

/-- The indices `ob & 1` met by the `n` remaining iterations of the bit loop,
in order. -/
def bitsOf : Nat → Nat → List Nat
  | 0, _ => []
  | n + 1, ob => (ob &&& 1) :: bitsOf n ((ob >>> 1) % 256)

/-- The byte the scan loop works on (`ocb`) for the input byte `b`. -/
def fedByte (fold : Bool) (b : Fin 256) : Fin 256 := if fold then foldByte b else b

/-! ## The built-in getopt (ent.c lines 62-88) -/

/-- A C string: its characters before the terminating NUL. -/
abbrev CStr := List Char

/-- The two static variables of `getopt`: `optind`, and `opp`, which is either
`NULL` or points at a character of an argument that is not the terminator (both
places that move `opp` reset it to `NULL` when it reaches the terminator); a
non-null `opp` is held as the character it points at and the characters after
it. -/
structure GetoptState where
  optind : Nat
  opp : Option (Char × CStr)
  deriving DecidableEq

/-- The initial values `optind = 1`, `opp = NULL`. -/
def GetoptState.init : GetoptState := { optind := 1, opp := none }

/-- Value of `opp` once it points at the string `s` and
`if (*opp == 0) opp = NULL` has run. -/
def oppAt : CStr → Option (Char × CStr)
  | [] => none
  | c :: t => some (c, t)

/-- How the loop `while (opp == NULL)` is left: by `return -1`, or with `opp`
pointing at the option character `c` followed by `rest`. -/
inductive LoopExit where
  | ret (optind : Nat)
  | opt (c : Char) (rest : CStr) (optind : Nat)
  deriving DecidableEq

/-- The loop `while (opp == NULL)` entered with `opp == NULL`. The first
argument is `argv[optind .. argc-1]`, so it is empty exactly when
`optind >= argc`, and its head is `argv[optind]`. -/
def skipLoop : List CStr → Nat → LoopExit
  | [], optind => LoopExit.ret optind
  | arg :: rest, optind =>
    if arg.head? ≠ some '-' then LoopExit.ret optind
    else
      match oppAt arg.tail with
      | none => skipLoop rest (optind + 1)
      | some (c, t) => LoopExit.opt c t (optind + 1)

/-- Value of a plain `char` holding the character `c` once widened to `int`, as
in `int o; o = *opp++;`: the character code, less 256 for the codes from 0x80
on where plain `char` is signed. -/
def charInt (charSigned : Bool) (c : Char) : Int :=
  if charSigned && decide (128 ≤ c.toNat) then (c.toNat : Int) - 256 else (c.toNat : Int)

/-- The tail of `getopt`: `o = *opp++; if (*opp == 0) opp = NULL;
return strchr(opts, o) == NULL ? '?' : o;`. The call `strchr(opts, o)` turns
`o` back into the `char` it came from, so it succeeds exactly when the
character occurs in `opts`. -/
def getoptEmit (charSigned : Bool) (opts : CStr) (c : Char) (rest : CStr) (optind : Nat) :
    Int × GetoptState :=
  (if c ∈ opts then charInt charSigned c else ('?'.toNat : Int),
    { optind := optind, opp := oppAt rest })

/-- One call `getopt(argc, argv, opts)`: the value returned and the static
variables afterwards. -/
def getopt (charSigned : Bool) (argv : List CStr) (opts : CStr) (st : GetoptState) : Int × GetoptState :=
  match st.opp with
  | some (c, rest) => getoptEmit charSigned opts c rest st.optind
  | none =>
    match skipLoop (argv.drop st.optind) st.optind with
    | LoopExit.ret optind => (-1, { optind := optind, opp := none })
    | LoopExit.opt c rest optind => getoptEmit charSigned opts c rest optind

/-- The static variables after `n` calls of `getopt` from the initial state. -/
def getoptIter (charSigned : Bool) (argv : List CStr) (opts : CStr) : Nat → GetoptState
  | 0 => GetoptState.init
  | n + 1 => (getopt charSigned argv opts (getoptIter charSigned argv opts n)).2

/-- The value returned by call number `n + 1` of `getopt`. -/
def getoptRet (charSigned : Bool) (argv : List CStr) (opts : CStr) (n : Nat) : Int :=
  (getopt charSigned argv opts (getoptIter charSigned argv opts n)).1

/-- Whether an argument begins with `-` (the test `*arg == '-'`). -/
def isDash (arg : CStr) : Bool := decide (arg.head? = some '-')

/-- The arguments `argv[1], argv[2], ...` up to the first one that does not
begin with `-`. -/
def leadDash (argv : List CStr) : List CStr :=
  (argv.drop 1).takeWhile isDash

/-- The value `getopt` returns for the option character `c`. -/
def optCode (charSigned : Bool) (opts : CStr) (c : Char) : Int :=
  if c ∈ opts then charInt charSigned c else ('?'.toNat : Int)

/-- The characters a non-null `opp` still has before it. -/
def oppChars : Option (Char × CStr) → List Char
  | none => []
  | some (c, rest) => c :: rest

/-- The option characters `getopt` has yet to return from a given state: those
under `opp`, then those of the dash arguments from `argv[optind]` on. -/
def pending (argv : List CStr) (st : GetoptState) : List Char :=
  oppChars st.opp ++ ((argv.drop st.optind).takeWhile isDash).flatMap List.tail

/-- The index at which `getopt` will stop from a given state: `optind` plus the
number of dash arguments from `argv[optind]` on. -/
def finalInd (argv : List CStr) (st : GetoptState) : Nat :=
  st.optind + ((argv.drop st.optind).takeWhile isDash).length

/-- Option characters that set `binary`. -/
def isB (c : Char) : Bool := c = 'b' || c = 'B'

/-- Option characters that set `fold`. -/
def isF (c : Char) : Bool := c = 'f' || c = 'F'

/-- The option characters of an argument vector: what follows the `-` in each
leading dash argument, in order. -/
def optChars (argv : List CStr) : List Char :=
  (leadDash argv).flatMap List.tail

/-- Total number of characters in the argument vector. -/
def totalChars (argv : List CStr) : Nat := (argv.map List.length).sum

/-! ## main (ent.c lines 91-217) -/

/-- The option string `main` passes to `getopt`. -/
def mainOpts : CStr := ['b', 'f', 'u', '?', 'B', 'F', 'U']

/-- What the ten `printf` calls of `help()` write, one entry per call. -/
def helpText : List String :=
  [ "ent --  Calculate entropy of file.  Call",
    "\n        with ent [options] [input-file]",
    "\n",
    "\n        Options:   -b   Treat input as a stream of bits",
    "\n                   -f   Fold upper to lower case letters",
    "\n                   -t   Terse output in CSV format",
    "\n                   -u   Print this message\n",
    "\nBy John Walker",
    "\n   http://www.fourmilab.ch/",
    "\n   January 28th, 2008\n" ]

/-- How the option loop of `main` ends: in `help(); return 0;`, or by `getopt`
returning -1 with the given `optind`, `fold` and `binary`. -/
inductive Parsed where
  | help
  | run (optind : Nat) (fold binary : Bool)
  deriving DecidableEq

/-- The loop `while (opt = getopt(argc, argv, "bfu?BFU"), opt != -1)` with its
`switch (tolower(opt))`; the first argument bounds the number of `getopt`
calls, and `none` means the bound was reached. -/
def optLoop (charSigned : Bool) (argv : List CStr) : Nat → GetoptState → Bool → Bool → Option Parsed
  | 0, _, _, _ => none
  | n + 1, st, fold, binary =>
    let r := getopt charSigned argv mainOpts st
    if r.1 = -1 then some (Parsed.run r.2.optind fold binary)
    else
      let c := tolower r.1
      if c = ('b'.toNat : Int) then optLoop charSigned argv n r.2 fold true
      else if c = ('f'.toNat : Int) then optLoop charSigned argv n r.2 true binary
      else if c = ('?'.toNat : Int) ∨ c = ('u'.toNat : Int) then some Parsed.help
      else optLoop charSigned argv n r.2 fold binary

/-- The five results `rt_end` stores. -/
structure Metrics where
  ent : ℚ
  chisq : ℚ
  mean : ℚ
  montepi : ℚ
  scc : ℚ

/-- What `main` takes from outside `ent.c`: the bytes on standard input; the
result of `fopen(name, "rb")` (`none` for `NULL`, else the bytes of the file);
the results `rt_end` stores, given the mode passed to `rt_init` and the
`rt_add` calls made; `pochisq`; the text of a `double` under a `printf`
conversion; and the value of `100.0 * (fabs(PI - montepi) / PI)`. -/
structure Env where
  stdin : List (Fin 256)
  fopen : CStr → Option (List (Fin 256))
  rt_end : Bool → List (List Nat) → Metrics
  pochisq : ℚ → Int → ℚ
  fmt : String → ℚ → String
  piError : ℚ → ℚ

/-- The sentence after the chi-square line (ent.c lines 195-202). -/
def chiTail (fmt : String → ℚ → String) (chip : ℚ) : String :=
  if chip < 1 / 10000 then
    "would exceed this value less than 0.01 percent of the times.\n\n"
  else if chip > 9999 / 10000 then
    "would exceed this value more than than 99.99 percent of the times.\n\n"
  else
    "would exceed this value " ++ fmt "%1.2f" (chip * 100) ++ " percent of the times.\n\n"

/-- What the `printf` calls of lines 192-214 write, one entry per call. -/
def report (env : Env) (binary : Bool) (totalc : Int) (m : Metrics) (chip : ℚ) : List String :=
  let samp : String := if binary then "bit" else "byte"
  [ "Entropy = " ++ env.fmt "%f" m.ent ++ " bits per " ++ samp ++ ".\n",
    "Chi square distribution for " ++ toString totalc ++ " samples is "
      ++ env.fmt "%1.2f" m.chisq ++ ", and randomly\n",
    chiTail env.fmt chip,
    "Arithmetic mean value of data " ++ samp ++ "s is " ++ env.fmt "%1.4f" m.mean
      ++ " (" ++ env.fmt "%.1f" (if binary then 1 / 2 else 255 / 2) ++ " = random).\n",
    "Monte Carlo value for Pi is " ++ env.fmt "%1.9f" m.montepi
      ++ " (error " ++ env.fmt "%1.2f" (env.piError m.montepi) ++ " percent).\n",
    "Serial correlation coefficient is ",
    if m.scc ≥ -99999 then env.fmt "%1.6f" m.scc ++ " (totally uncorrelated = 0.0).\n"
    else "undefined (all values equal!).\n" ]

/-- The stream `fp` the scan loop reads. -/
inductive Stream where
  | stdin
  | file (name : CStr)
  deriving DecidableEq

/-- What a run of `main` does: the value returned, the `printf` output, the
names passed to `fopen`, and, when the scan loop ran, the stream it read and
the state it left. -/
structure Outcome where
  ret : Int
  out : List String
  fopens : List CStr
  scanned : Option (Stream × ScanState)

/-- Lines 153-216 of `main`: scan `input`, finish the calculation, print the
report, return 0. -/
def analyse (longMax : Nat) (env : Env) (fold binary : Bool) (fp : Stream)
    (input : List (Fin 256)) (fopens : List CStr) : Outcome :=
  let s := scan longMax fold binary input
  let m := env.rt_end binary s.rtAdds
  let chip := env.pochisq m.chisq (if binary then 1 else 255)
  { ret := 0, out := report env binary s.totalc m chip, fopens := fopens,
    scanned := some (fp, s) }

/-- The function `main`; `none` only if the option loop did not end within
`totalChars argv + 1` calls of `getopt`. -/
def main (longMax : Nat) (charSigned : Bool) (env : Env) (argv : List CStr) : Option Outcome :=
  match optLoop charSigned argv (totalChars argv + 1) GetoptState.init false false with
  | none => none
  | some Parsed.help => some { ret := 0, out := helpText, fopens := [], scanned := none }
  | some (Parsed.run optind fold binary) =>
    if h : optind < argv.length then
      if optind ≠ argv.length - 1 then
        some { ret := 2, out := "Duplicate file name.\n" :: helpText, fopens := [],
               scanned := none }
      else
        match env.fopen argv[optind] with
        | none =>
          some { ret := 2, out := ["Cannot open file " ++ String.mk argv[optind] ++ "\n"],
                 fopens := [argv[optind]], scanned := none }
        | some content =>
          some (analyse longMax env fold binary (Stream.file argv[optind]) content
            [argv[optind]])
    else some (analyse longMax env fold binary Stream.stdin env.stdin [])

/-- Whether the string `pat` occurs in `s` as a run of consecutive characters. -/
def occursIn (pat : List Char) : List Char → Bool
  | [] => pat.isEmpty
  | c :: s => pat.isPrefixOf (c :: s) || occursIn pat s

/-- A sample environment: empty standard input, no file can be opened, all
results zero, every number printed as `0`. -/
def env0 : Env :=
  { stdin := [], fopen := fun _ => none, rt_end := fun _ _ => ⟨0, 0, 0, 0, 0⟩,
    pochisq := fun _ _ => 0, fmt := fun _ _ => "0", piError := fun _ => 0 }

/-- A sample environment like `env0` in which the file `data` exists and holds
the two bytes 0x00, 0xFF. -/
def env1 : Env :=
  { env0 with fopen := fun name => if name = "data".toList then some [0x00, 0xFF] else none }

/-! ## Arithmetic of `long` -/

theorem wrapLong_id (m : Nat) (x : Int) (h1 : -((m : Int) + 1) ≤ x) (h2 : x ≤ m) :
    wrapLong m x = x := by
  unfold wrapLong
  rw [Int.emod_eq_of_lt (by omega) (by omega)]
  omega

theorem wrapLong_add (m : Nat) (x y : Int) :
    wrapLong m (wrapLong m x + y) = wrapLong m (x + y) := by
  unfold wrapLong
  have h : (x + ((m : Int) + 1)) % (2 * ((m : Int) + 1)) - ((m : Int) + 1) + y + ((m : Int) + 1)
      = (x + ((m : Int) + 1)) % (2 * ((m : Int) + 1)) + y := by ring
  rw [h, Int.emod_add_emod]
  have h2 : x + ((m : Int) + 1) + y = x + y + ((m : Int) + 1) := by ring
  rw [h2]

theorem wrapLong_zero (m : Nat) : wrapLong m 0 = 0 :=
  wrapLong_id m 0 (by omega) (by omega)

/-! ## The scan loop -/

theorem scan_nil (m : Nat) (fold binary : Bool) : scan m fold binary [] = ScanState.init := rfl

theorem scan_snoc (m : Nat) (fold binary : Bool) (l : List (Fin 256)) (b : Fin 256) :
    scan m fold binary (l ++ [b]) = scanByte m fold binary (scan m fold binary l) b := by
  simp [scan, List.foldl_append]

set_option maxRecDepth 100000 in
theorem ocb_fold : ∀ b : Fin 256,
    (((if isalpha (b.val : Int) && isupper (b.val : Int) then tolower (b.val : Int)
        else (b.val : Int)) % 256).toNat) = (foldByte b).val := by
  decide

theorem ocb_eq (fold : Bool) (b : Fin 256) :
    (((if fold && isalpha (b.val : Int) && isupper (b.val : Int) then tolower (b.val : Int)
        else (b.val : Int)) % 256).toNat) = (fedByte fold b).val := by
  cases fold
  · simp only [Bool.false_and, fedByte]
    have := b.isLt
    simp only [Bool.false_eq_true, if_false]
    omega
  · have h := ocb_fold b
    simpa [fedByte] using h

theorem scanByte_eq (m : Nat) (fold binary : Bool) (st : ScanState) (b : Fin 256) :
    scanByte m fold binary st b =
      { totalc := wrapLong m (st.totalc + (if binary then 8 else 1))
        ccount := if binary then bitLoop m 8 st.ccount (fedByte fold b).val
                  else incr m st.ccount (fedByte fold b).val
        rtAdds := st.rtAdds ++ [[(fedByte fold b).val]] } := by
  simp only [scanByte, ocb_eq]

theorem scan_rtAdds (m : Nat) (fold binary : Bool) (s : List (Fin 256)) :
    (scan m fold binary s).rtAdds = s.map (fun b => [(fedByte fold b).val]) := by
  induction s using List.reverseRecOn with
  | nil => rfl
  | append_singleton l b ih => rw [scan_snoc, scanByte_eq]; simp [ih]

theorem scan_totalc (m : Nat) (fold binary : Bool) (s : List (Fin 256)) :
    (scan m fold binary s).totalc
      = wrapLong m ((if binary then 8 else 1) * (s.length : Int)) := by
  induction s using List.reverseRecOn with
  | nil => simp [scan_nil, ScanState.init, wrapLong_zero]
  | append_singleton l b ih =>
    rw [scan_snoc, scanByte_eq]
    simp only [ih, wrapLong_add, List.length_append, List.length_singleton]
    congr 1
    push_cast
    cases binary
    · simp
    · simp only [if_true]
      ring

theorem foldl_incr_wrap (m : Nat) (l : List Nat) (c : Nat → Int) (v : Nat) (x : Int)
    (h : c v = wrapLong m x) :
    (l.foldl (incr m) c) v = wrapLong m (x + (l.count v : Int)) := by
  induction l generalizing c x with
  | nil => simpa using h
  | cons a l ih =>
    rw [List.foldl_cons]
    by_cases hva : v = a
    · subst hva
      have h1 : incr m c v v = wrapLong m (x + 1) := by
        simp [incr, h, wrapLong_add]
      rw [ih _ _ h1, List.count_cons_self]
      congr 1
      push_cast
      ring
    · have h1 : incr m c a v = wrapLong m x := by
        simp [incr, hva, h]
      have hne : (a == v) = false := by
        simpa using fun h => hva h.symm
      rw [ih _ _ h1, List.count_cons, hne]
      simp

theorem foldl_incr_not_mem (m : Nat) (l : List Nat) (c : Nat → Int) (v : Nat)
    (h : v ∉ l) : (l.foldl (incr m) c) v = c v := by
  induction l generalizing c with
  | nil => rfl
  | cons a l ih =>
    rw [List.foldl_cons, ih _ (fun hm => h (List.mem_cons_of_mem _ hm))]
    have hva : v ≠ a := fun e => h (e ▸ List.mem_cons_self _ _)
    simp [incr, hva]

theorem bitLoop_eq_foldl (m : Nat) (n : Nat) (c : Nat → Int) (ob : Nat) :
    bitLoop m n c ob = (bitsOf n ob).foldl (incr m) c := by
  induction n generalizing c ob with
  | zero => rfl
  | succ n ih => simp [bitLoop, bitsOf, ih]

set_option maxRecDepth 100000 in
theorem bitsOf_facts : ∀ b : Fin 256,
    (bitsOf 8 b.val).count 1 = popcount b.val ∧
    (bitsOf 8 b.val).count 0 = 8 - popcount b.val ∧
    popcount b.val ≤ 8 ∧
    ∀ v ∈ bitsOf 8 b.val, v < 2 := by
  decide

theorem scan_byte_ccount (m : Nat) (fold : Bool) (s : List (Fin 256)) (v : Nat) :
    (scan m fold false s).ccount v
      = wrapLong m (((s.map (fun b => (fedByte fold b).val)).count v : Nat) : Int) := by
  induction s using List.reverseRecOn with
  | nil => simp [scan_nil, ScanState.init, wrapLong_zero]
  | append_singleton l b ih =>
    rw [scan_snoc, scanByte_eq]
    simp only [Bool.false_eq_true, if_false]
    have h := foldl_incr_wrap m [(fedByte fold b).val] _ v _ ih
    simp only [List.foldl_cons, List.foldl_nil] at h
    rw [h, List.map_append, List.count_append]
    simp

theorem scan_bit_ccount (m : Nat) (fold : Bool) (s : List (Fin 256)) :
    (scan m fold true s).ccount 1
        = wrapLong m (((s.map (fun b => popcount (fedByte fold b).val)).sum : Nat) : Int) ∧
    (scan m fold true s).ccount 0
        = wrapLong m (((s.map (fun b => 8 - popcount (fedByte fold b).val)).sum : Nat) : Int) ∧
    ∀ v, 2 ≤ v → (scan m fold true s).ccount v = 0 := by
  induction s using List.reverseRecOn with
  | nil => simp [scan_nil, ScanState.init, wrapLong_zero]
  | append_singleton l b ih =>
    obtain ⟨ih1, ih0, ihv⟩ := ih
    obtain ⟨f1, f0, _, fv⟩ := bitsOf_facts (fedByte fold b)
    rw [scan_snoc, scanByte_eq]
    simp only [if_true, bitLoop_eq_foldl]
    refine ⟨?_, ?_, ?_⟩
    · rw [foldl_incr_wrap m _ _ 1 _ ih1, f1]
      simp
    · rw [foldl_incr_wrap m _ _ 0 _ ih0, f0]
      simp
    · intro v hv
      rw [foldl_incr_not_mem m _ _ v (fun hm => by have := fv v hm; omega)]
      exact ihv v hv

theorem sum_popcount_le (fold : Bool) (s : List (Fin 256)) :
    (s.map (fun b => popcount (fedByte fold b).val)).sum ≤ 8 * s.length ∧
    (s.map (fun b => 8 - popcount (fedByte fold b).val)).sum ≤ 8 * s.length ∧
    (s.map (fun b => popcount (fedByte fold b).val)).sum
      + (s.map (fun b => 8 - popcount (fedByte fold b).val)).sum = 8 * s.length := by
  induction s with
  | nil => simp
  | cons b l ih =>
    obtain ⟨_, _, h8, _⟩ := bitsOf_facts (fedByte fold b)
    simp only [List.map_cons, List.sum_cons, List.length_cons]
    omega

theorem binSum_eq_finset (c : Nat → Int) : binSum c = ∑ i in Finset.range 256, c i := by
  unfold binSum
  generalize 256 = n
  induction n with
  | zero => simp
  | succ n ih => rw [List.range_succ, List.map_append, List.sum_append, ih, Finset.sum_range_succ]; simp

theorem binSum_count (t : List Nat) (ht : ∀ x ∈ t, x < 256) :
    binSum (fun v => ((t.count v : Nat) : Int)) = t.length := by
  rw [binSum_eq_finset]
  induction t with
  | nil => simp
  | cons a t ih =>
    have ha : a < 256 := ht a (List.mem_cons_self _ _)
    have ih1 := ih (fun x hx => ht x (List.mem_cons_of_mem _ hx))
    have hstep : ∀ i, (((a :: t).count i : Nat) : Int)
        = ((t.count i : Nat) : Int) + (if i = a then 1 else 0) := by
      intro i
      rw [List.count_cons]
      by_cases h : i = a
      · subst h; simp
      · have : (a == i) = false := by simpa using fun e => h e.symm
        simp [this, h]
    simp only [hstep, Finset.sum_add_distrib, ih1, List.length_cons]
    rw [Finset.sum_ite_eq' (Finset.range 256) a (fun _ => (1 : Int))]
    simp [ha]

theorem binSum_two (c : Nat → Int) (h : ∀ v, 2 ≤ v → c v = 0) : binSum c = c 0 + c 1 := by
  rw [binSum_eq_finset]
  have hsplit : Finset.range 256 = Finset.range 2 ∪ Finset.Ico 2 256 := by
    ext x
    simp only [Finset.mem_range, Finset.mem_union, Finset.mem_Ico]
    omega
  have hdisj : Disjoint (Finset.range 2) (Finset.Ico 2 256) := by
    rw [Finset.disjoint_left]
    intro x hx hx2
    simp only [Finset.mem_range, Finset.mem_Ico] at hx hx2
    omega
  rw [hsplit, Finset.sum_union hdisj]
  have hz : ∑ i in Finset.Ico 2 256, c i = 0 :=
    Finset.sum_eq_zero (fun i hi => h i (by simp only [Finset.mem_Ico] at hi; omega))
  rw [hz]
  simp [Finset.sum_range_succ]

theorem scanByte_fold (m : Nat) (binary : Bool) (st : ScanState) (b : Fin 256) :
    scanByte m true binary st b = scanByte m false binary st (foldByte b) := by
  rw [scanByte_eq, scanByte_eq]
  simp [fedByte]

theorem scan_fold (m : Nat) (binary : Bool) (s : List (Fin 256)) :
    scan m true binary s = scan m false binary (s.map foldByte) := by
  induction s using List.reverseRecOn with
  | nil => rfl
  | append_singleton l b ih =>
    rw [List.map_append, List.map_singleton, scan_snoc, scan_snoc, ih, scanByte_fold]

set_option maxRecDepth 100000 in
theorem foldByte_not_upper : ∀ b : Fin 256, ¬ (0x41 ≤ (foldByte b).val ∧ (foldByte b).val ≤ 0x5A) := by
  decide

/-! ## The claims about the scan loop -/

/-- C1 (amended): for every input whose symbol count `8 * length` does not
exceed `LONG_MAX`, scanned in Bit mode, `ccount[1]` is the sum of the popcounts
of the scanned bytes (the input bytes, case-folded first when `-f` is set),
`ccount[0]` is the sum of `8 - popcount`, every other bin is 0, and `totalc` is
8 times the number of input bytes. -/
theorem bit_mode_counts (longMax : Nat) (fold : Bool) (s : List (Fin 256))
    (hfit : 8 * s.length ≤ longMax) :
    (scan longMax fold true s).ccount 1
        = ((s.map (fun b => popcount (fedByte fold b).val)).sum : Nat) ∧
    (scan longMax fold true s).ccount 0
        = ((s.map (fun b => 8 - popcount (fedByte fold b).val)).sum : Nat) ∧
    (∀ v, 2 ≤ v → (scan longMax fold true s).ccount v = 0) ∧
    (scan longMax fold true s).totalc = 8 * (s.length : Int) := by
  obtain ⟨h1, h0, hv⟩ := scan_bit_ccount longMax fold s
  obtain ⟨b1, b0, _⟩ := sum_popcount_le fold s
  refine ⟨?_, ?_, hv, ?_⟩
  · rw [h1]; exact wrapLong_id _ _ (by omega) (by omega)
  · rw [h0]; exact wrapLong_id _ _ (by omega) (by omega)
  · rw [scan_totalc]; simp only [if_true]; exact wrapLong_id _ _ (by omega) (by omega)

/-- C1 witness: the input 0x00, 0xFF in Bit mode gives `ccount[1] = 8`,
`ccount[0] = 8`, all other bins 0 and `totalc = 16`. -/
theorem bit_mode_counts_witness :
    8 * ([0x00, 0xFF] : List (Fin 256)).length ≤ 2 ^ 63 - 1 ∧
    (scan (2 ^ 63 - 1) false true [0x00, 0xFF]).ccount 1 = 8 ∧
    (scan (2 ^ 63 - 1) false true [0x00, 0xFF]).ccount 0 = 8 ∧
    (∀ v, 2 ≤ v → (scan (2 ^ 63 - 1) false true [0x00, 0xFF]).ccount v = 0) ∧
    (scan (2 ^ 63 - 1) false true [0x00, 0xFF]).totalc = 16 := by
  obtain ⟨h1, h0, hv, ht⟩ := bit_mode_counts (2 ^ 63 - 1) false [0x00, 0xFF] (by decide)
  refine ⟨by decide, ?_, ?_, hv, ?_⟩
  · rw [h1]; decide
  · rw [h0]; decide
  · rw [ht]; decide

/-- C1 counterexample: in Bit mode, 2^28 zero bytes with a 32-bit `long`, and
2^60 zero bytes with a 64-bit `long`, leave `totalc` and `ccount[0]` at
`LONG_MIN`, not at 8 times the number of input bytes. -/
theorem bit_mode_counts_overflow :
    (scan (2 ^ 31 - 1) false true (List.replicate (2 ^ 28) 0)).totalc
      ≠ 8 * ((List.replicate (2 ^ 28) (0 : Fin 256)).length : Int) ∧
    (scan (2 ^ 63 - 1) false true (List.replicate (2 ^ 60) 0)).totalc
      ≠ 8 * ((List.replicate (2 ^ 60) (0 : Fin 256)).length : Int) ∧
    (scan (2 ^ 63 - 1) false true (List.replicate (2 ^ 60) 0)).totalc = -(2 ^ 63) := by
  simp only [scan_totalc, List.length_replicate, if_true]
  refine ⟨?_, ?_, ?_⟩ <;> decide

theorem count_map_val (s : List (Fin 256)) (v : Nat) :
    (s.map (fun b => (fedByte false b).val)).count v
      = s.countP (fun b => decide (b.val = v)) := by
  have hf : (fun b : Fin 256 => (fedByte false b).val) = fun b => b.val := by
    funext b
    simp [fedByte]
  rw [hf]
  induction s with
  | nil => rfl
  | cons a l ih =>
    simp only [List.map_cons, List.count_cons, List.countP_cons, ih]
    simp

/-- C2 (amended): for every input of at most `LONG_MAX` bytes scanned in Byte
mode without folding, every bin `ccount[v]`, `v` in 0..255, holds the number
of positions of the input holding the byte `v`, `totalc` is the number of
input bytes, and ingesting a byte `b` adds exactly 1 to the bin `b` and leaves
every other bin unchanged. -/
theorem byte_mode_counts (longMax : Nat) (s : List (Fin 256)) (hfit : s.length ≤ longMax) :
    (∀ v, v < 256 → (scan longMax false false s).ccount v
        = (s.countP (fun b => decide (b.val = v)) : Nat)) ∧
    (scan longMax false false s).totalc = (s.length : Int) ∧
    (∀ (p r : List (Fin 256)) (b : Fin 256), s = p ++ b :: r → ∀ v,
        (scan longMax false false (p ++ [b])).ccount v
          = (scan longMax false false p).ccount v + (if v = b.val then 1 else 0)) := by
  refine ⟨?_, ?_, ?_⟩
  · intro v _
    rw [scan_byte_ccount, count_map_val]
    have := List.countP_le_length (fun b : Fin 256 => decide (b.val = v)) (l := s)
    exact wrapLong_id _ _ (by omega) (by omega)
  · rw [scan_totalc]
    simp only [Bool.false_eq_true, if_false, one_mul]
    exact wrapLong_id _ _ (by omega) (by omega)
  · intro p r b hs v
    have hlen : p.length + 1 ≤ longMax := by
      have : s.length = p.length + (r.length + 1) := by simp [hs]
      omega
    rw [scan_byte_ccount, scan_byte_ccount, count_map_val, count_map_val,
      List.countP_append]
    have h1 := List.countP_le_length (fun b : Fin 256 => decide (b.val = v)) (l := p)
    have h2 := List.countP_le_length (fun b : Fin 256 => decide (b.val = v)) (l := [b])
    simp only [List.length_singleton] at h2
    rw [wrapLong_id longMax (((List.countP (fun b : Fin 256 => decide (b.val = v)) p
          + List.countP (fun b : Fin 256 => decide (b.val = v)) [b] : Nat)) : Int)
          (by omega) (by omega),
      wrapLong_id longMax ((List.countP (fun b : Fin 256 => decide (b.val = v)) p : Nat) : Int)
          (by omega) (by omega)]
    by_cases hv : v = b.val
    · simp [hv]
    · have : ¬ b.val = v := fun e => hv e.symm
      simp [hv, this]

set_option maxRecDepth 100000 in
/-- C2 witness: 256 bytes of 0x00 give `ccount[0] = 256` and all other bins 0;
the bytes 0x00..0xFF once each give every bin equal to 1. -/
theorem byte_mode_counts_witness :
    (List.replicate 256 (0 : Fin 256)).length ≤ 2 ^ 31 - 1 ∧
    (scan (2 ^ 31 - 1) false false (List.replicate 256 0)).ccount 0 = 256 ∧
    (∀ v, 1 ≤ v → v < 256 → (scan (2 ^ 31 - 1) false false (List.replicate 256 0)).ccount v = 0) ∧
    (scan (2 ^ 31 - 1) false false (List.replicate 256 0)).totalc = 256 ∧
    (∀ v, v < 256 → (scan (2 ^ 31 - 1) false false (List.finRange 256)).ccount v = 1) := by
  have h := byte_mode_counts (2 ^ 31 - 1) (List.replicate 256 0) (by decide)
  have g := byte_mode_counts (2 ^ 31 - 1) (List.finRange 256) (by decide)
  refine ⟨by decide, ?_, ?_, ?_, ?_⟩
  · rw [h.1 0 (by decide)]; decide
  · intro v h1 h2
    rw [h.1 v h2, List.countP_replicate]
    have hv0 : ¬ (0 = v) := by omega
    simp [hv0]
  · rw [h.2.1]; decide
  · intro v hv
    rw [g.1 v hv]
    revert v
    decide

/-- C2 counterexample: in Byte mode without folding, 2^31 zero bytes with a
32-bit `long`, and 2^63 zero bytes with a 64-bit `long`, leave `ccount[0]` and
`totalc` at `LONG_MIN`, not at the number of input bytes. -/
theorem byte_mode_counts_overflow :
    (scan (2 ^ 31 - 1) false false (List.replicate (2 ^ 31) 0)).ccount 0
      ≠ ((List.replicate (2 ^ 31) (0 : Fin 256)).countP (fun b => decide (b.val = 0)) : Nat) ∧
    (scan (2 ^ 31 - 1) false false (List.replicate (2 ^ 31) 0)).totalc
      ≠ ((List.replicate (2 ^ 31) (0 : Fin 256)).length : Int) ∧
    (scan (2 ^ 63 - 1) false false (List.replicate (2 ^ 63) 0)).totalc
      ≠ ((List.replicate (2 ^ 63) (0 : Fin 256)).length : Int) ∧
    (scan (2 ^ 63 - 1) false false (List.replicate (2 ^ 63) 0)).totalc = -(2 ^ 63) := by
  simp only [scan_totalc, scan_byte_ccount, count_map_val, List.length_replicate,
    List.countP_replicate, Bool.false_eq_true, if_false, one_mul]
  refine ⟨?_, ?_, ?_, ?_⟩ <;> decide

theorem binSum_two_runs (m n : Nat) :
    binSum (scan m false false (List.replicate n 0 ++ List.replicate n 1)).ccount
      = wrapLong m n + wrapLong m n := by
  have hc : ∀ v, (scan m false false (List.replicate n 0 ++ List.replicate n 1)).ccount v
      = wrapLong m (((if 0 = v then n else 0) + (if 1 = v then n else 0) : Nat) : Int) := by
    intro v
    rw [scan_byte_ccount, count_map_val, List.countP_append, List.countP_replicate,
      List.countP_replicate]
    simp
  rw [binSum_two _ (fun v hv => by
    rw [hc v, if_neg (by omega), if_neg (by omega)]
    exact wrapLong_zero m), hc 0, hc 1]
  simp

/-- C3 (amended): in both modes and for either fold setting, for every input
whose symbol count (8 per byte in Bit mode, 1 per byte in Byte mode) does not
exceed `LONG_MAX`, the 256 bins of `ccount` sum to `totalc` after every prefix
of the input, the empty one included; the state after a prefix extended by one
byte is one iteration of the loop away from the state after the prefix. -/
theorem bins_sum_eq_totalc (longMax : Nat) (fold binary : Bool) (s : List (Fin 256))
    (hfit : (if binary then 8 else 1) * s.length ≤ longMax) :
    (∀ p, p <+: s →
      binSum (scan longMax fold binary p).ccount = (scan longMax fold binary p).totalc) ∧
    (∀ p b, scan longMax fold binary (p ++ [b])
      = scanByte longMax fold binary (scan longMax fold binary p) b) := by
  refine ⟨?_, fun p b => scan_snoc longMax fold binary p b⟩
  intro p hp
  have hlen : p.length ≤ s.length := hp.length_le
  cases binary with
  | false =>
    simp only [Bool.false_eq_true, if_false, one_mul] at hfit
    have hc : (scan longMax fold false p).ccount
        = fun v => (((p.map (fun b => (fedByte fold b).val)).count v : Nat) : Int) := by
      funext v
      rw [scan_byte_ccount]
      have := List.count_le_length v (p.map (fun b => (fedByte fold b).val))
      rw [List.length_map] at this
      exact wrapLong_id _ _ (by omega) (by omega)
    rw [hc, binSum_count _ (by
      intro x hx
      obtain ⟨b, _, rfl⟩ := List.mem_map.mp hx
      exact (fedByte fold b).isLt), scan_totalc]
    simp only [Bool.false_eq_true, if_false, one_mul, List.length_map]
    exact (wrapLong_id _ _ (by omega) (by omega)).symm
  | true =>
    simp only [if_true] at hfit
    obtain ⟨h1, h0, hv⟩ := scan_bit_ccount longMax fold p
    obtain ⟨b1, b0, hsum⟩ := sum_popcount_le fold p
    rw [binSum_two _ hv, h1, h0, scan_totalc]
    simp only [if_true]
    rw [wrapLong_id _ _ (by omega) (by omega), wrapLong_id _ _ (by omega) (by omega),
      wrapLong_id _ _ (by omega) (by omega)]
    omega

/-- C3 witness: the empty input gives `totalc = 0` and all bins 0, so the bins
sum to `totalc`. -/
theorem bins_sum_eq_totalc_witness :
    (if false then 8 else 1) * ([] : List (Fin 256)).length ≤ 2 ^ 63 - 1 ∧
    binSum (scan (2 ^ 63 - 1) false false []).ccount = (scan (2 ^ 63 - 1) false false []).totalc ∧
    (scan (2 ^ 63 - 1) false false []).totalc = 0 ∧
    (∀ v, (scan (2 ^ 63 - 1) false false []).ccount v = 0) :=
  ⟨by decide,
   (bins_sum_eq_totalc (2 ^ 63 - 1) false false [] (by decide)).1 [] (List.prefix_refl _),
   rfl, fun _ => rfl⟩

/-- C3 counterexample: in Byte mode, 2^30 bytes 0x00 followed by 2^30 bytes 0x01
with a 32-bit `long` (2^62 of each with a 64-bit `long`) leave the bins summing
to 2^31 (2^63) while `totalc` has wrapped to `LONG_MIN`. -/
theorem bins_sum_ne_totalc_overflow :
    binSum (scan (2 ^ 31 - 1) false false
        (List.replicate (2 ^ 30) 0 ++ List.replicate (2 ^ 30) 1)).ccount
      ≠ (scan (2 ^ 31 - 1) false false
        (List.replicate (2 ^ 30) 0 ++ List.replicate (2 ^ 30) 1)).totalc ∧
    binSum (scan (2 ^ 63 - 1) false false
        (List.replicate (2 ^ 62) 0 ++ List.replicate (2 ^ 62) 1)).ccount
      ≠ (scan (2 ^ 63 - 1) false false
        (List.replicate (2 ^ 62) 0 ++ List.replicate (2 ^ 62) 1)).totalc := by
  simp only [binSum_two_runs, scan_totalc, List.length_append, List.length_replicate,
    Bool.false_eq_true, if_false, one_mul]
  refine ⟨?_, ?_⟩ <;> decide

/-- C4: with the fold flag the scan leaves exactly the state (bins, total and
`rt_add` calls) of a scan without the flag of the input in which every byte in
0x41..0x5A is replaced by that byte plus 0x20 and every other byte is kept; in
Byte mode the bins 0x41..0x5A are all 0 after a folded run; without the flag
the bytes handed to `rt_add` are the input bytes. -/
theorem fold_is_upstream_map (longMax : Nat) (binary : Bool) (s : List (Fin 256)) :
    scan longMax true binary s = scan longMax false binary (s.map foldByte) ∧
    (∀ b : Fin 256, ¬ (0x41 ≤ b.val ∧ b.val ≤ 0x5A) → foldByte b = b) ∧
    (∀ b : Fin 256, 0x41 ≤ b.val → b.val ≤ 0x5A → (foldByte b).val = b.val + 0x20) ∧
    (∀ v, 0x41 ≤ v → v ≤ 0x5A → (scan longMax true false s).ccount v = 0) ∧
    (scan longMax false binary s).rtAdds = s.map (fun b => [b.val]) := by
  refine ⟨scan_fold longMax binary s, fun b hb => by simp only [foldByte, hb, if_false], ?_, ?_, ?_⟩
  · intro b h1 h2
    have hb := b.isLt
    simp only [foldByte, h1, h2, and_self, if_true]
    omega
  · intro v h1 h2
    rw [scan_byte_ccount, List.count_eq_zero_of_not_mem]
    · exact wrapLong_zero longMax
    · intro hm
      obtain ⟨b, _, rfl⟩ := List.mem_map.mp hm
      exact foldByte_not_upper b ⟨h1, h2⟩
  · rw [scan_rtAdds]
    simp [fedByte]

/-- C9: for every input and fold setting, `main` makes the same `rt_add` calls
in Bit mode as in Byte mode: one call per input byte, in input order, each with
length 1 and holding the whole (possibly folded) byte; in Byte mode the byte
handed over by an iteration is the index of the bin that iteration increments. -/
theorem rt_add_calls_mode_independent (longMax : Nat) (fold : Bool) (s : List (Fin 256)) :
    (scan longMax fold true s).rtAdds = (scan longMax fold false s).rtAdds ∧
    (scan longMax fold true s).rtAdds = s.map (fun b => [(fedByte fold b).val]) ∧
    (scan longMax fold true s).rtAdds.length = s.length ∧
    (∀ buf ∈ (scan longMax fold true s).rtAdds, buf.length = 1) ∧
    (∀ (binary : Bool) (st : ScanState) (b : Fin 256),
      (scanByte longMax fold binary st b).rtAdds = st.rtAdds ++ [[(fedByte fold b).val]]) ∧
    (∀ (st : ScanState) (b : Fin 256),
      (scanByte longMax fold false st b).ccount = incr longMax st.ccount (fedByte fold b).val) := by
  refine ⟨?_, scan_rtAdds _ _ _ _, ?_, ?_, ?_, ?_⟩
  · rw [scan_rtAdds, scan_rtAdds]
  · rw [scan_rtAdds, List.length_map]
  · intro buf hbuf
    rw [scan_rtAdds] at hbuf
    obtain ⟨b, _, rfl⟩ := List.mem_map.mp hbuf
    rfl
  · intro binary st b
    rw [scanByte_eq]
  · intro st b
    rw [scanByte_eq]
    simp

/-! ## getopt -/

theorem oppChars_oppAt (s : CStr) : oppChars (oppAt s) = s := by
  cases s <;> rfl

theorem takeWhile_drop_takeWhile (args : List CStr) :
    (args.drop (args.takeWhile isDash).length).takeWhile isDash = [] := by
  induction args with
  | nil => rfl
  | cons a rest ih =>
    by_cases h : isDash a = true
    · simp [List.takeWhile_cons, h, ih]
    · simp [List.takeWhile_cons, h]

theorem skipLoop_spec (args : List CStr) (i : Nat) :
    match skipLoop args i with
    | LoopExit.ret j =>
        (args.takeWhile isDash).flatMap List.tail = [] ∧
        j = i + (args.takeWhile isDash).length
    | LoopExit.opt c rest j =>
        i < j ∧ j ≤ i + args.length ∧
        (args.takeWhile isDash).flatMap List.tail
          = c :: rest ++ ((args.drop (j - i)).takeWhile isDash).flatMap List.tail ∧
        j + ((args.drop (j - i)).takeWhile isDash).length
          = i + (args.takeWhile isDash).length := by
  induction args generalizing i with
  | nil => simp [skipLoop]
  | cons a rest ih =>
    by_cases h : isDash a = true
    · have hh : a.head? = some '-' := by simpa [isDash] using h
      cases ht : oppAt a.tail with
      | none =>
        have hnil : a.tail = [] := by
          cases htl : a.tail with
          | nil => rfl
          | cons c t => rw [htl] at ht; simp [oppAt] at ht
        have hs : skipLoop (a :: rest) i = skipLoop rest (i + 1) := by
          simp [skipLoop, hh, ht]
        rw [hs]
        have := ih (i + 1)
        cases hr : skipLoop rest (i + 1) with
        | ret j =>
          rw [hr] at this
          simp only [List.takeWhile_cons, h, if_true, List.flatMap_cons, hnil, List.nil_append,
            List.length_cons]
          exact ⟨this.1, by omega⟩
        | opt c r j =>
          rw [hr] at this
          obtain ⟨h1, h2, h3, h4⟩ := this
          have hj : j - i = (j - (i + 1)) + 1 := by omega
          simp only [List.takeWhile_cons, h, if_true, List.flatMap_cons, hnil, List.nil_append,
            List.length_cons, hj, List.drop_succ_cons]
          exact ⟨by omega, by omega, h3, by omega⟩
      | some cr =>
        obtain ⟨c, t⟩ := cr
        have htl : a.tail = c :: t := by
          cases htl : a.tail with
          | nil => rw [htl] at ht; simp [oppAt] at ht
          | cons c2 t2 =>
            rw [htl] at ht
            simp only [oppAt, Option.some.injEq, Prod.mk.injEq] at ht
            rw [ht.1, ht.2]
        have hs : skipLoop (a :: rest) i = LoopExit.opt c t (i + 1) := by
          simp [skipLoop, hh, ht]
        rw [hs]
        have hj : i + 1 - i = 0 + 1 := by omega
        simp only [List.takeWhile_cons, h, if_true, List.flatMap_cons, htl, List.length_cons, hj,
          List.drop_succ_cons, List.drop_zero, List.cons_append]
        exact ⟨by omega, by omega, trivial, by omega⟩
    · have hh : ¬ a.head? = some '-' := by simpa [isDash] using h
      have hs : skipLoop (a :: rest) i = LoopExit.ret i := by
        simp [skipLoop, hh]
      rw [hs]
      simp [List.takeWhile_cons, h]

theorem getopt_done (charSigned : Bool) (argv : List CStr) (opts : CStr) (st : GetoptState)
    (h : pending argv st = []) :
    getopt charSigned argv opts st = (-1, { optind := finalInd argv st, opp := none }) := by
  unfold pending at h
  rw [List.append_eq_nil] at h
  obtain ⟨h1, h2⟩ := h
  have hopp : st.opp = none := by
    cases ho : st.opp with
    | none => rfl
    | some cr => rw [ho] at h1; obtain ⟨c, r⟩ := cr; simp [oppChars] at h1
  have hspec := skipLoop_spec (argv.drop st.optind) st.optind
  unfold getopt
  rw [hopp]
  cases hr : skipLoop (argv.drop st.optind) st.optind with
  | ret j =>
    rw [hr] at hspec
    simp only [finalInd, hspec.2]
  | opt c r j =>
    rw [hr] at hspec
    rw [hspec.2.2.1] at h2
    simp at h2

theorem getopt_next (charSigned : Bool) (argv : List CStr) (opts : CStr) (st : GetoptState) (c : Char)
    (cs : List Char) (h : pending argv st = c :: cs) :
    ∃ st', getopt charSigned argv opts st = (optCode charSigned opts c, st') ∧ pending argv st' = cs ∧
      finalInd argv st' = finalInd argv st ∧ st.optind ≤ st'.optind := by
  cases ho : st.opp with
  | some cr =>
    obtain ⟨c0, r⟩ := cr
    simp only [pending, ho, oppChars, List.cons_append, List.cons.injEq] at h
    obtain ⟨hc, hcs⟩ := h
    subst hc
    refine ⟨{ optind := st.optind, opp := oppAt r }, ?_, ?_, ?_, le_refl _⟩
    · simp [getopt, ho, getoptEmit, optCode]
    · simp only [pending, oppChars_oppAt]
      exact hcs
    · rfl
  | none =>
    simp only [pending, ho, oppChars, List.nil_append] at h
    have hspec := skipLoop_spec (argv.drop st.optind) st.optind
    cases hr : skipLoop (argv.drop st.optind) st.optind with
    | ret j =>
      rw [hr] at hspec
      rw [hspec.1] at h
      simp at h
    | opt c0 r j =>
      rw [hr] at hspec
      obtain ⟨h1, h2, h3, h4⟩ := hspec
      have hdrop : (argv.drop st.optind).drop (j - st.optind) = argv.drop j := by
        rw [List.drop_drop]
        congr 1
        omega
      rw [hdrop] at h3 h4
      rw [h3] at h
      simp only [List.cons_append, List.cons.injEq] at h
      obtain ⟨hc, hcs⟩ := h
      subst hc
      refine ⟨{ optind := j, opp := oppAt r }, ?_, ?_, ?_, ?_⟩
      · simp [getopt, ho, hr, getoptEmit, optCode]
      · simp only [pending, oppChars_oppAt]
        exact hcs
      · simp only [finalInd]
        exact h4
      · exact le_of_lt h1

theorem pending_final (argv : List CStr) (st : GetoptState) :
    pending argv { optind := finalInd argv st, opp := none } = [] ∧
    finalInd argv { optind := finalInd argv st, opp := none } = finalInd argv st := by
  have h := takeWhile_drop_takeWhile (argv.drop st.optind)
  rw [List.drop_drop] at h
  have he2 : st.optind + (List.takeWhile isDash (List.drop st.optind argv)).length
      = finalInd argv st := rfl
  rw [he2] at h
  constructor
  · show oppChars none ++ ((argv.drop (finalInd argv st)).takeWhile isDash).flatMap List.tail = []
    rw [h]
    rfl
  · show finalInd argv st + ((argv.drop (finalInd argv st)).takeWhile isDash).length
      = finalInd argv st
    rw [h]
    rfl

theorem getoptIter_inv (charSigned : Bool) (argv : List CStr) (opts : CStr) (n : Nat) :
    pending argv (getoptIter charSigned argv opts n) = (optChars argv).drop n ∧
    finalInd argv (getoptIter charSigned argv opts n) = 1 + (leadDash argv).length := by
  induction n with
  | zero => exact ⟨rfl, rfl⟩
  | succ n ih =>
    obtain ⟨ih1, ih2⟩ := ih
    cases hp : pending argv (getoptIter charSigned argv opts n) with
    | nil =>
      have hd := getopt_done charSigned argv opts _ hp
      have hf := pending_final argv (getoptIter charSigned argv opts n)
      have hnext : getoptIter charSigned argv opts (n + 1)
          = { optind := finalInd argv (getoptIter charSigned argv opts n), opp := none } := by
        simp only [getoptIter, hd]
      rw [hnext, hf.1, hf.2]
      refine ⟨?_, ih2⟩
      rw [hp] at ih1
      have hlen : (optChars argv).length ≤ n := by
        have := congrArg List.length ih1
        simp only [List.length_nil, List.length_drop] at this
        omega
      exact (List.drop_eq_nil_of_le (by omega)).symm
    | cons c cs =>
      obtain ⟨st', h1, h2, h3, _⟩ := getopt_next charSigned argv opts _ c cs hp
      have hnext : getoptIter charSigned argv opts (n + 1) = st' := by
        simp only [getoptIter, h1]
      rw [hnext, h2, h3]
      refine ⟨?_, ih2⟩
      rw [hp] at ih1
      have : (optChars argv).drop (n + 1) = ((optChars argv).drop n).tail := by
        rw [List.tail_drop]
      rw [this, ← ih1]
      rfl

theorem getoptRet_lt (charSigned : Bool) (argv : List CStr) (opts : CStr) (n : Nat)
    (h : n < (optChars argv).length) :
    getoptRet charSigned argv opts n = optCode charSigned opts ((optChars argv)[n]) := by
  have hinv := (getoptIter_inv charSigned argv opts n).1
  rw [List.drop_eq_getElem_cons h] at hinv
  obtain ⟨st', h1, _⟩ := getopt_next charSigned argv opts _ _ _ hinv
  simp only [getoptRet, h1]

theorem getoptRet_ge (charSigned : Bool) (argv : List CStr) (opts : CStr) (n : Nat)
    (h : (optChars argv).length ≤ n) :
    getoptRet charSigned argv opts n = -1 ∧
    (getoptIter charSigned argv opts (n + 1)).optind = 1 + (leadDash argv).length := by
  have hinv := getoptIter_inv charSigned argv opts n
  rw [List.drop_eq_nil_of_le h] at hinv
  have hd := getopt_done charSigned argv opts _ hinv.1
  simp only [getoptRet, getoptIter, hd, hinv.2, and_self]

theorem getoptIter_mono (charSigned : Bool) (argv : List CStr) (opts : CStr) (n : Nat) :
    (getoptIter charSigned argv opts n).optind ≤ (getoptIter charSigned argv opts (n + 1)).optind := by
  cases hp : pending argv (getoptIter charSigned argv opts n) with
  | nil =>
    have hd := getopt_done charSigned argv opts _ hp
    simp only [getoptIter, hd, finalInd]
    omega
  | cons c cs =>
    obtain ⟨st', h1, _, _, h4⟩ := getopt_next charSigned argv opts _ c cs hp
    simpa only [getoptIter, h1] using h4

theorem leadDash_length_lt (argv : List CStr) (h : 0 < argv.length) :
    1 + (leadDash argv).length ≤ argv.length := by
  have := (List.takeWhile_sublist isDash (l := argv.drop 1)).length_le
  simp only [List.length_drop] at this
  simp only [leadDash]
  omega

theorem takeWhile_getElem_opt {α : Type} (p : α → Bool) (l : List α) :
    (∀ k a, k < (l.takeWhile p).length → l[k]? = some a → p a = true) ∧
    (∀ a, l[(l.takeWhile p).length]? = some a → p a = false) := by
  induction l with
  | nil => simp
  | cons x l ih =>
    by_cases hx : p x = true
    · simp only [List.takeWhile_cons, hx, if_true, List.length_cons]
      refine ⟨?_, ?_⟩
      · intro k a hk ha
        cases k with
        | zero =>
          simp only [List.getElem?_cons_zero, Option.some.injEq] at ha
          rw [← ha]; exact hx
        | succ k =>
          simp only [List.getElem?_cons_succ] at ha
          exact ih.1 k a (by omega) ha
      · intro a ha
        simp only [List.getElem?_cons_succ] at ha
        exact ih.2 a ha
    · have htw : (x :: l).takeWhile p = [] := by simp [List.takeWhile_cons, hx]
      rw [htw]
      refine ⟨fun k a hk _ => absurd hk (by simp), ?_⟩
      intro a ha
      simp only [List.length_nil, List.getElem?_cons_zero, Option.some.injEq] at ha
      rw [← ha]
      simp only [Bool.not_eq_true] at hx
      exact hx

theorem optChars_length_le (argv : List CStr) : (optChars argv).length ≤ totalChars argv := by
  have h1 : ∀ l : List CStr,
      ((l.takeWhile isDash).flatMap List.tail).length ≤ (l.map List.length).sum := by
    intro l
    induction l with
    | nil => simp
    | cons a l ih =>
      by_cases ha : isDash a = true
      · simp only [List.takeWhile_cons, ha, if_true, List.flatMap_cons, List.length_append,
          List.length_tail, List.map_cons, List.sum_cons]
        omega
      · simp [List.takeWhile_cons, ha]
  have h2 := h1 (argv.drop 1)
  cases argv with
  | nil => simp [optChars, leadDash, totalChars]
  | cons a l =>
    simp only [List.drop_succ_cons, List.drop_zero] at h2
    simp only [optChars, leadDash, totalChars, List.drop_succ_cons, List.drop_zero, List.map_cons,
      List.sum_cons]
    omega

theorem optCode_facts (charSigned : Bool) (opts : CStr) (c : Char)
    (hbyte : ∀ x ∈ opts, x.toNat < 256)
    (hff : charSigned = true → Char.ofNat 0xFF ∉ opts) :
    (optCode charSigned opts c = ('?'.toNat : Int) ↔ (c ∉ opts ∨ c = '?')) ∧
    optCode charSigned opts c ≠ -1 := by
  have hq : (('?'.toNat : Nat) : Int) = 63 := rfl
  by_cases hc : c ∈ opts
  · have hb := hbyte c hc
    have h255 : charSigned = true → c.toNat ≠ 255 := by
      intro hs e
      apply hff hs
      have hce : c = Char.ofNat 255 := by rw [← Char.ofNat_toNat c, e]
      rw [← hce]
      exact hc
    have h63 : c.toNat = 63 → c = '?' := by
      intro e
      rw [← Char.ofNat_toNat c, e]
    have hrev : c = '?' → c.toNat = 63 := by
      intro e
      rw [e]
      rfl
    simp only [optCode, hc, if_true, charInt, not_true_eq_false, false_or, hq]
    cases charSigned with
    | false =>
      simp only [Bool.false_and, Bool.false_eq_true, if_false]
      exact ⟨⟨fun h => h63 (by omega), fun h => by have := hrev h; omega⟩, by omega⟩
    | true =>
      have h255t := h255 rfl
      by_cases h128 : 128 ≤ c.toNat
      · simp only [Bool.true_and, decide_eq_true_eq, h128, if_true]
        exact ⟨⟨fun h => by omega, fun h => by have := hrev h; omega⟩, by omega⟩
      · simp only [Bool.true_and, decide_eq_true_eq, h128, if_false]
        exact ⟨⟨fun h => h63 (by omega), fun h => by have := hrev h; omega⟩, by omega⟩
  · simp only [optCode, hc, if_false, not_false_eq_true, true_or, iff_true, true_and, hq]
    omega

theorem getoptIter_optind_le (charSigned : Bool) (argv : List CStr) (opts : CStr)
    (h : 0 < argv.length) (n : Nat) :
    (getoptIter charSigned argv opts n).optind ≤ argv.length := by
  have h1 := (getoptIter_inv charSigned argv opts n).2
  have h2 := leadDash_length_lt argv h
  simp only [finalInd] at h1
  omega

theorem final_index_spec (argv : List CStr) (h : 0 < argv.length) :
    (1 + (leadDash argv).length = argv.length ∨
      ∃ a, argv[1 + (leadDash argv).length]? = some a ∧ isDash a = false) ∧
    (∀ i a, 1 ≤ i → i < 1 + (leadDash argv).length → argv[i]? = some a → isDash a = true) := by
  have hle := leadDash_length_lt argv h
  have hspec := takeWhile_getElem_opt isDash (argv.drop 1)
  constructor
  · by_cases he : 1 + (leadDash argv).length = argv.length
    · exact Or.inl he
    · right
      have hlt : 1 + (leadDash argv).length < argv.length := by omega
      refine ⟨argv[1 + (leadDash argv).length], List.getElem?_eq_getElem hlt, ?_⟩
      apply hspec.2
      rw [List.getElem?_drop]
      exact List.getElem?_eq_getElem hlt
  · intro i a h1 h2 ha
    apply hspec.1 (i - 1) a
    · simp only [leadDash] at h2
      omega
    · rw [List.getElem?_drop]
      have : 1 + (i - 1) = i := by omega
      rw [this]
      exact ha

/-- C10 (amended): on every argument vector with `argc >= 1` and every option
string that, where plain `char` is signed, does not hold the character 0xFF
(the one that reads as -1), from `optind = 1` and `opp = NULL`: every call of
the built-in `getopt` returns (the function is total) and returns -1, `?` or a
character of the option string; call number `i + 1` returns the `i`-th option
character of the leading dash arguments (clusters in order, a bare `-`
contributing none) if it is in the option string and `?` otherwise, so it
returns `?` exactly when that character is not in the option string or is `?`
itself; `optind` never decreases and never exceeds `argc`; after as many calls
as there are option characters, at most the number of characters in `argv`,
`getopt` returns -1, not before, and `optind` is then `argc` or the index of
the first argument after `argv[0]` that does not begin with `-`. -/
theorem getopt_well_behaved (charSigned : Bool) (opts : CStr) (argv : List CStr)
    (hargc : 0 < argv.length)
    (hbyte : ∀ x ∈ opts, x.toNat < 256)
    (hff : charSigned = true → Char.ofNat 0xFF ∉ opts) :
    (∀ n, getoptRet charSigned argv opts n = -1 ∨
      getoptRet charSigned argv opts n = ('?'.toNat : Int) ∨
      ∃ c ∈ opts, getoptRet charSigned argv opts n = charInt charSigned c) ∧
    (∀ i (h : i < (optChars argv).length),
      getoptRet charSigned argv opts i
        = (if (optChars argv)[i] ∈ opts then charInt charSigned ((optChars argv)[i])
           else ('?'.toNat : Int)) ∧
      (getoptRet charSigned argv opts i = ('?'.toNat : Int)
        ↔ ((optChars argv)[i] ∉ opts ∨ (optChars argv)[i] = '?')) ∧
      getoptRet charSigned argv opts i ≠ -1) ∧
    (∀ n, (getoptIter charSigned argv opts n).optind
      ≤ (getoptIter charSigned argv opts (n + 1)).optind) ∧
    (∀ n, (getoptIter charSigned argv opts n).optind ≤ argv.length) ∧
    (optChars argv).length ≤ totalChars argv ∧
    getoptRet charSigned argv opts (optChars argv).length = -1 ∧
    ((getoptIter charSigned argv opts ((optChars argv).length + 1)).optind = argv.length ∨
      ∃ a, argv[(getoptIter charSigned argv opts ((optChars argv).length + 1)).optind]? = some a ∧
        isDash a = false) ∧
    (∀ i a, 1 ≤ i → i < (getoptIter charSigned argv opts ((optChars argv).length + 1)).optind →
      argv[i]? = some a → isDash a = true) := by
  have hfin := (getoptRet_ge charSigned argv opts (optChars argv).length (le_refl _))
  have hidx := final_index_spec argv hargc
  refine ⟨?_, ?_, getoptIter_mono charSigned argv opts,
    getoptIter_optind_le charSigned argv opts hargc, optChars_length_le argv, hfin.1, ?_, ?_⟩
  · intro n
    by_cases hn : n < (optChars argv).length
    · rw [getoptRet_lt charSigned argv opts n hn]
      unfold optCode
      by_cases hc : (optChars argv)[n] ∈ opts
      · exact Or.inr (Or.inr ⟨_, hc, by simp only [hc, if_true]⟩)
      · exact Or.inr (Or.inl (by simp only [hc, if_false]))
    · exact Or.inl (getoptRet_ge charSigned argv opts n (by omega)).1
  · intro i h
    rw [getoptRet_lt charSigned argv opts i h]
    have hf := optCode_facts charSigned opts ((optChars argv)[i]) hbyte hff
    exact ⟨rfl, hf.1, hf.2⟩
  · rw [hfin.2]
    exact hidx.1
  · rw [hfin.2]
    exact hidx.2

/-- C10 witness: on `ent - -bf x`, with the option string of `main` and a
signed `char`, the calls return `b`, `f`, then -1 with `optind = 3`, the index
of `x`; the bare `-` yields no option. -/
theorem getopt_well_behaved_witness :
    0 < (["ent".toList, "-".toList, "-bf".toList, "x".toList] : List CStr).length ∧
    (∀ x ∈ mainOpts, x.toNat < 256) ∧
    ((true : Bool) = true → Char.ofNat 0xFF ∉ mainOpts) ∧
    optChars ["ent".toList, "-".toList, "-bf".toList, "x".toList] = ['b', 'f'] ∧
    getoptRet true ["ent".toList, "-".toList, "-bf".toList, "x".toList] mainOpts 0
      = ('b'.toNat : Int) ∧
    getoptRet true ["ent".toList, "-".toList, "-bf".toList, "x".toList] mainOpts 1
      = ('f'.toNat : Int) ∧
    getoptRet true ["ent".toList, "-".toList, "-bf".toList, "x".toList] mainOpts 2 = -1 ∧
    (getoptIter true ["ent".toList, "-".toList, "-bf".toList, "x".toList] mainOpts 3).optind
      = 3 := by
  have h := getopt_well_behaved true mainOpts
    ["ent".toList, "-".toList, "-bf".toList, "x".toList] (by decide) (by decide)
    (fun _ => by decide)
  refine ⟨by decide, by decide, fun _ => by decide, by decide, ?_, ?_, ?_, by decide⟩
  · rw [(h.2.1 0 (by decide)).1]; decide
  · rw [(h.2.1 1 (by decide)).1]; decide
  · exact h.2.2.2.2.2.1

/-- C10 counterexample: with the option string of `main`, which contains `?`,
the argument `-?` makes `getopt` return `?` although the option character is
in the option string; with an empty argument vector `optind` starts at 1, above
`argc = 0`; and where plain `char` is signed, an option string holding the
character 0xFF makes the first call on `ent -\xFF -b x` return -1 with
`optind = 2`, which is neither `argc` nor the index of an argument that does
not begin with `-`, the next call returning `?` for `b`. -/
theorem getopt_qmark_in_opts :
    getoptRet true ["ent".toList, "-?".toList] mainOpts 0 = ('?'.toNat : Int) ∧
    optChars ["ent".toList, "-?".toList] = ['?'] ∧ '?' ∈ mainOpts ∧
    ¬ ((getoptIter true ([] : List CStr) mainOpts 0).optind ≤ ([] : List CStr).length) ∧
    getoptRet true ["ent".toList, [Char.ofNat 0x2D, Char.ofNat 0xFF], "-b".toList, "x".toList]
      [Char.ofNat 0xFF] 0 = -1 ∧
    (getoptIter true ["ent".toList, [Char.ofNat 0x2D, Char.ofNat 0xFF], "-b".toList, "x".toList]
      [Char.ofNat 0xFF] 1).optind = 2 ∧
    isDash ("-b".toList) = true ∧
    getoptRet true ["ent".toList, [Char.ofNat 0x2D, Char.ofNat 0xFF], "-b".toList, "x".toList]
      [Char.ofNat 0xFF] 1 = ('?'.toNat : Int) := by
  decide

/-! ## main -/

theorem tolower_optCode (charSigned : Bool) (c : Char) :
    (isB c = true → tolower (optCode charSigned mainOpts c) = ('b'.toNat : Int)) ∧
    (isF c = true → tolower (optCode charSigned mainOpts c) = ('f'.toNat : Int)) ∧
    (isB c = false → isF c = false →
      (tolower (optCode charSigned mainOpts c) = ('?'.toNat : Int) ∨
       tolower (optCode charSigned mainOpts c) = ('u'.toNat : Int))) ∧
    optCode charSigned mainOpts c ≠ -1 := by
  by_cases hc : c ∈ mainOpts
  · simp only [mainOpts, List.mem_cons, List.mem_singleton, List.not_mem_nil, or_false] at hc
    rcases hc with h | h | h | h | h | h | h <;> subst h <;> cases charSigned <;> decide
  · have hcode : optCode charSigned mainOpts c = ('?'.toNat : Int) := by
      simp only [optCode, hc, if_false]
    have hb : isB c = false := by
      simp only [mainOpts, List.mem_cons, List.mem_singleton, List.not_mem_nil, or_false,
        not_or] at hc
      simp [isB, hc.1, hc.2.2.2.2.1]
    have hf : isF c = false := by
      simp only [mainOpts, List.mem_cons, List.mem_singleton, List.not_mem_nil, or_false,
        not_or] at hc
      simp [isF, hc.2.1, hc.2.2.2.2.2.1]
    rw [hcode, hb, hf]
    decide

theorem isB_not_isF (c : Char) (h : isB c = true) : isF c = false := by
  simp only [isB, Bool.or_eq_true, decide_eq_true_eq] at h
  rcases h with h | h <;> subst h <;> decide

theorem optLoop_spec (charSigned : Bool) (argv : List CStr) (cs : List Char) :
    ∀ (n : Nat) (st : GetoptState) (fold binary : Bool),
      pending argv st = cs → cs.length < n →
      optLoop charSigned argv n st fold binary =
        if cs.all (fun c => isB c || isF c) then
          some (Parsed.run (finalInd argv st) (fold || cs.any isF) (binary || cs.any isB))
        else some Parsed.help := by
  induction cs with
  | nil =>
    intro n st fold binary hp hn
    obtain ⟨k, rfl⟩ : ∃ k, n = k + 1 := ⟨n - 1, by simp at hn; omega⟩
    have hd := getopt_done charSigned argv mainOpts st hp
    simp [optLoop, hd]
  | cons c t ih =>
    intro n st fold binary hp hn
    obtain ⟨k, rfl⟩ : ∃ k, n = k + 1 := ⟨n - 1, by omega⟩
    have hk : t.length < k := by simp only [List.length_cons] at hn; omega
    obtain ⟨st', h1, h2, h3, _⟩ := getopt_next charSigned argv mainOpts st c t hp
    obtain ⟨tb, tf, tu, tne⟩ := tolower_optCode charSigned c
    have hstep : optLoop charSigned argv (k + 1) st fold binary =
        if tolower (optCode charSigned mainOpts c) = ('b'.toNat : Int) then optLoop charSigned argv k st' fold true
        else if tolower (optCode charSigned mainOpts c) = ('f'.toNat : Int) then optLoop charSigned argv k st' true binary
        else if tolower (optCode charSigned mainOpts c) = ('?'.toNat : Int)
            ∨ tolower (optCode charSigned mainOpts c) = ('u'.toNat : Int) then some Parsed.help
        else optLoop charSigned argv k st' fold binary := by
      simp only [optLoop, h1, tne, if_false]
    rw [hstep]
    cases hb : isB c with
    | true =>
      have hf : isF c = false := isB_not_isF c hb
      rw [if_pos (tb hb), ih k st' fold true h2 hk, h3]
      simp [hb, hf]
    | false =>
      cases hf : isF c with
      | true =>
        have e := tf hf
        have hne : ¬ tolower (optCode charSigned mainOpts c) = ('b'.toNat : Int) := by
          rw [e]; decide
        rw [if_neg hne, if_pos e, ih k st' true binary h2 hk, h3]
        simp [hb, hf]
      | false =>
        have e := tu hb hf
        have hne1 : ¬ tolower (optCode charSigned mainOpts c) = ('b'.toNat : Int) := by
          rcases e with e | e <;> rw [e] <;> decide
        have hne2 : ¬ tolower (optCode charSigned mainOpts c) = ('f'.toNat : Int) := by
          rcases e with e | e <;> rw [e] <;> decide
        rw [if_neg hne1, if_neg hne2, if_pos e]
        simp [hb, hf]

theorem main_optLoop (charSigned : Bool) (argv : List CStr) :
    optLoop charSigned argv (totalChars argv + 1) GetoptState.init false false =
      if (optChars argv).all (fun c => isB c || isF c) then
        some (Parsed.run (1 + (leadDash argv).length)
          ((optChars argv).any isF) ((optChars argv).any isB))
      else some Parsed.help := by
  have h := optLoop_spec charSigned argv (optChars argv) (totalChars argv + 1) GetoptState.init false false
    rfl (by have := optChars_length_le argv; omega)
  rw [h]
  simp only [Bool.false_or]
  rfl

theorem main_help (longMax : Nat) (charSigned : Bool) (env : Env) (argv : List CStr)
    (h : ∃ c ∈ optChars argv, isB c = false ∧ isF c = false) :
    main longMax charSigned env argv
      = some { ret := 0, out := helpText, fopens := [], scanned := none } := by
  obtain ⟨c, hc, hb, hf⟩ := h
  have hall : (optChars argv).all (fun c => isB c || isF c) = false := by
    rw [List.all_eq_false]
    exact ⟨c, hc, by simp [hb, hf]⟩
  simp only [main, main_optLoop, hall, Bool.false_eq_true, if_false]

theorem main_all (argv : List CStr) (h : ∀ c ∈ optChars argv, isB c = true ∨ isF c = true) :
    (optChars argv).all (fun c => isB c || isF c) = true := by
  rw [List.all_eq_true]
  intro c hc
  rcases h c hc with hb | hf
  · simp [hb]
  · simp [hf]

theorem drop_singleton_getElem (argv : List CStr) (k : Nat) (a : CStr)
    (h : argv.drop k = [a]) :
    ∃ hlt : k < argv.length, argv[k] = a ∧ k = argv.length - 1 := by
  have hlen := congrArg List.length h
  simp only [List.length_drop, List.length_singleton] at hlen
  have hlt : k < argv.length := by omega
  refine ⟨hlt, ?_, by omega⟩
  have h0 : (argv.drop k)[0]? = some a := by rw [h]; rfl
  rw [List.getElem?_drop] at h0
  have h1 : argv[k]? = some a := by simpa using h0
  rw [List.getElem?_eq_getElem hlt] at h1
  exact Option.some.inj h1

/-- C6: for every argument vector whose option characters all lie in `bfBF`:
with more than one argument left after the options `main` returns 2 after
printing "Duplicate file name." and the help text, calling `fopen` on nothing
and scanning nothing; with exactly one left that `fopen` cannot open, `main`
returns 2 without scanning; with none left, standard input is scanned and
`main` returns 0; with exactly one left that opens, that file is scanned and
`main` returns 0. -/
theorem main_file_selection (longMax : Nat) (charSigned : Bool) (env : Env) (argv : List CStr)
    (hopts : ∀ c ∈ optChars argv, isB c = true ∨ isF c = true) :
    (2 ≤ (argv.drop (1 + (leadDash argv).length)).length →
      main longMax charSigned env argv
        = some { ret := 2, out := "Duplicate file name.\n" :: helpText, fopens := [],
                 scanned := none }) ∧
    (∀ a, argv.drop (1 + (leadDash argv).length) = [a] → env.fopen a = none →
      main longMax charSigned env argv
        = some { ret := 2, out := ["Cannot open file " ++ String.mk a ++ "\n"],
                 fopens := [a], scanned := none }) ∧
    (argv.drop (1 + (leadDash argv).length) = [] →
      ∃ o, main longMax charSigned env argv = some o ∧ o.ret = 0 ∧ o.fopens = [] ∧
        o.scanned = some (Stream.stdin,
          scan longMax ((optChars argv).any isF) ((optChars argv).any isB) env.stdin)) ∧
    (∀ a content, argv.drop (1 + (leadDash argv).length) = [a] →
      env.fopen a = some content →
      ∃ o, main longMax charSigned env argv = some o ∧ o.ret = 0 ∧ o.fopens = [a] ∧
        o.scanned = some (Stream.file a,
          scan longMax ((optChars argv).any isF) ((optChars argv).any isB) content)) := by
  have hall := main_all argv hopts
  refine ⟨?_, ?_, ?_, ?_⟩
  · intro h2
    simp only [List.length_drop] at h2
    have hlt : 1 + (leadDash argv).length < argv.length := by omega
    have hne : 1 + (leadDash argv).length ≠ argv.length - 1 := by omega
    simp only [main, main_optLoop, hall, if_true, dif_pos hlt, if_pos hne]
  · intro a ha hopen
    obtain ⟨hlt, hget, heq⟩ := drop_singleton_getElem argv _ a ha
    simp only [main, main_optLoop, hall, if_true, dif_pos hlt, hget, hopen]
    rw [if_neg (not_not.mpr heq)]
  · intro hnil
    have hge : ¬ 1 + (leadDash argv).length < argv.length := by
      have := congrArg List.length hnil
      simp only [List.length_drop, List.length_nil] at this
      omega
    refine ⟨analyse longMax env ((optChars argv).any isF) ((optChars argv).any isB)
      Stream.stdin env.stdin [], ?_, rfl, rfl, rfl⟩
    simp only [main, main_optLoop, hall, if_true, dif_neg hge]
  · intro a content ha hopen
    obtain ⟨hlt, hget, heq⟩ := drop_singleton_getElem argv _ a ha
    refine ⟨analyse longMax env ((optChars argv).any isF) ((optChars argv).any isB)
      (Stream.file a) content [a], ?_, rfl, rfl, rfl⟩
    simp only [main, main_optLoop, hall, if_true, dif_pos hlt, hget, hopen]
    rw [if_neg (not_not.mpr heq)]

/-- C6 witness: `ent -b data`, where `data` holds 0x00 0xFF, scans that file in
Bit mode and returns 0; `ent -b a b` returns 2. -/
theorem main_file_selection_witness :
    (∀ c ∈ optChars ["ent".toList, "-b".toList, "data".toList], isB c = true ∨ isF c = true) ∧
    (∃ o, main (2 ^ 63 - 1) true env1 ["ent".toList, "-b".toList, "data".toList] = some o ∧
      o.ret = 0 ∧ o.fopens = ["data".toList] ∧
      o.scanned = some (Stream.file "data".toList, scan (2 ^ 63 - 1) false true [0x00, 0xFF])) := by
  have h := main_file_selection (2 ^ 63 - 1) true env1 ["ent".toList, "-b".toList, "data".toList]
    (by decide)
  exact ⟨by decide, h.2.2.2 "data".toList [0x00, 0xFF] (by decide) (by decide)⟩

/-- C5 (amended): for every argument vector whose leading dash arguments hold
an option character outside the option string `bfu?BFU`, `main` prints the
help text and returns 0, without opening or scanning any input. -/
theorem unrecognized_option_prints_help (longMax : Nat) (charSigned : Bool) (env : Env) (argv : List CStr)
    (h : ∃ c ∈ optChars argv, c ∉ mainOpts) :
    main longMax charSigned env argv
      = some { ret := 0, out := helpText, fopens := [], scanned := none } := by
  obtain ⟨c, hc, hn⟩ := h
  apply main_help
  refine ⟨c, hc, ?_, ?_⟩
  · simp only [mainOpts, List.mem_cons, List.mem_singleton, List.not_mem_nil, or_false,
      not_or] at hn
    simp [isB, hn.1, hn.2.2.2.2.1]
  · simp only [mainOpts, List.mem_cons, List.mem_singleton, List.not_mem_nil, or_false,
      not_or] at hn
    simp [isF, hn.2.1, hn.2.2.2.2.2.1]

/-- C5 witness: `ent -bx data` prints the help text and returns 0. -/
theorem unrecognized_option_prints_help_witness :
    (∃ c ∈ optChars ["ent".toList, "-bx".toList, "data".toList], c ∉ mainOpts) ∧
    main (2 ^ 63 - 1) true env1 ["ent".toList, "-bx".toList, "data".toList]
      = some { ret := 0, out := helpText, fopens := [], scanned := none } :=
  ⟨by decide,
   unrecognized_option_prints_help (2 ^ 63 - 1) true env1
     ["ent".toList, "-bx".toList, "data".toList] (by decide)⟩

/-- C5 counterexample: `ent -x`, whose option `x` is not in the option string,
returns 0, not 2. -/
theorem unrecognized_option_returns_zero :
    'x' ∈ optChars ["ent".toList, "-x".toList] ∧ 'x' ∉ mainOpts ∧
    (main (2 ^ 63 - 1) true env0 ["ent".toList, "-x".toList]).map (fun o => o.ret) = some 0 ∧
    (main (2 ^ 63 - 1) true env0 ["ent".toList, "-x".toList]).map (fun o => o.ret) ≠ some 2 := by
  decide

/-- C7 (code as it is): whenever `t` is among the option characters, `main`
prints the help text and returns 0 without scanning any input, and the help
text it prints advertises `-t   Terse output in CSV format`. -/
theorem terse_flag_prints_help (longMax : Nat) (charSigned : Bool) (env : Env) (argv : List CStr)
    (h : 't' ∈ optChars argv) :
    main longMax charSigned env argv
      = some { ret := 0, out := helpText, fopens := [], scanned := none } ∧
    't' ∉ mainOpts ∧
    helpText.any (fun line => occursIn "-t   Terse output in CSV format".toList line.toList)
      = true :=
  ⟨main_help longMax charSigned env argv ⟨'t', h, by decide, by decide⟩, by decide, by decide⟩

/-- C7 failing input: `ent -t data` prints the help text and returns 0; the
file is neither opened nor scanned. -/
theorem terse_flag_prints_help_witness :
    't' ∈ optChars ["ent".toList, "-t".toList, "data".toList] ∧
    main (2 ^ 63 - 1) true env1 ["ent".toList, "-t".toList, "data".toList]
      = some { ret := 0, out := helpText, fopens := [], scanned := none } :=
  ⟨by decide,
   (terse_flag_prints_help (2 ^ 63 - 1) true env1 ["ent".toList, "-t".toList, "data".toList]
     (by decide)).1⟩

/-- C8 (code as it is): the sentence is chosen by `p` alone; for `p < 0.0001` it
holds "less than 0.01 percent", for `0.0001 <= p <= 0.9999` it holds `p * 100`
under `%1.2f` followed by " percent", and for `p > 0.9999` it reads "more than
than 99.99 percent", in which "more than 99.99 percent" does not occur. -/
theorem chi_phrase (fmt : String → ℚ → String) (chip : ℚ) :
    (chip < 1 / 10000 →
      chiTail fmt chip = "would exceed this value less than 0.01 percent of the times.\n\n") ∧
    (1 / 10000 ≤ chip → chip ≤ 9999 / 10000 →
      chiTail fmt chip
        = "would exceed this value " ++ fmt "%1.2f" (chip * 100) ++ " percent of the times.\n\n") ∧
    (9999 / 10000 < chip →
      chiTail fmt chip
        = "would exceed this value more than than 99.99 percent of the times.\n\n" ∧
      occursIn "more than 99.99 percent".toList (chiTail fmt chip).toList = false) := by
  refine ⟨?_, ?_, ?_⟩
  · intro h
    simp only [chiTail, if_pos h]
  · intro h1 h2
    simp only [chiTail, if_neg (not_lt.mpr h1), if_neg (not_lt.mpr h2)]
  · intro h
    have h1 : ¬ chip < 1 / 10000 := by
      intro h2
      have : (1 : ℚ) / 10000 < 9999 / 10000 := by norm_num
      linarith
    have e : chiTail fmt chip
        = "would exceed this value more than than 99.99 percent of the times.\n\n" := by
      simp only [chiTail, if_neg h1, if_pos h]
    rw [e]
    exact ⟨rfl, by decide⟩

/-- C8 failing input: a tail probability of 1 yields the sentence with "more
than than", which does not contain "more than 99.99 percent". -/
theorem chi_phrase_witness :
    (9999 : ℚ) / 10000 < 1 ∧
    chiTail env0.fmt 1
      = "would exceed this value more than than 99.99 percent of the times.\n\n" ∧
    occursIn "more than 99.99 percent".toList (chiTail env0.fmt 1).toList = false :=
  ⟨by norm_num, (chi_phrase env0.fmt 1).2.2 (by norm_num)⟩

end Ent
